import Mathlib

/-!
Verification of the console Field component (ConsoleField.cpp): line editing,
command submission (`Field::RunCommand`) and tab completion
(`Field::AutoComplete`).

Modelling conventions:

* Text is a sequence of Unicode code points, `List Char`.  String contents
  are modelled at the code-point level: the storage-encoding conversions
  (`Str::UTF32To8` / `Str::UTF8To32`, outside this translation unit) are
  total and content-transparent, and UTF-8 byte order coincides with
  code-point order, so equality and comparisons on the UTF-8 side agree
  with their code-point counterparts.  Byte *lengths* do not coincide:
  where the source takes `std::string::size()` of a UTF-8 string and feeds
  it into code-point buffer arithmetic — `DeletePrev(prefix.size())` — the
  model takes the UTF-8 byte length `utf8Len` explicitly.
* External collaborators (command-separator splitter, argument tokenizer,
  completion provider) are parameters, gathered in `Externals`.
* The interaction-log sink receives structured messages (`LogMsg`); the
  external textual formatting (`Str::Format`) is not modelled.
-/

namespace Console

/-- Convert a string literal into the code-point list used by the model. -/
def chars (s : String) : List Char := s.data

/-- The UTF-8 byte length of a code-point sequence: what
`std::string::size()` returns on the storage-encoding (UTF-8) form of the
text.  For non-ASCII code points this exceeds the code-point count. -/
def utf8Len : List Char → Nat
  | [] => 0
  | c :: rest => c.utf8Size + utf8Len rest

/-- Modelled from the spec: `Str::cisspace`, the locale-independent whitespace
test used by the completion engine (the `Str` utility library is not part of
the analysed translation unit). -/
def cisspace (c : Char) : Bool :=
  c = ' ' || c = '\t' || c = '\n' || c = '\x0b' || c = '\x0c' || c = '\r'

/-- Modelled from the spec: `Str::LongestPrefixSize`, the ordinary
longest-common-prefix length of two strings. -/
def longestPrefixSize : List Char → List Char → Nat
  | a :: as, b :: bs => if a = b then longestPrefixSize as bs + 1 else 0
  | _, _ => 0

/-- Modelled from the spec: `Str::LongestIPrefixSize`, the case-insensitive
longest-common-prefix length of two strings. -/
def longestIPrefixSize : List Char → List Char → Nat
  | a :: as, b :: bs => if a.toLower = b.toLower then longestIPrefixSize as bs + 1 else 0
  | _, _ => 0

/-- Modelled from the spec: `Str::IsSuffix(suffix, str)`, the suffix test. -/
def isSuffix (suf s : List Char) : Bool := List.isSuffixOf suf s

/-- `std::string::rfind(c, pos)` on the model: index of the last occurrence of
`c` at position `≤ pos`, as the C++ code reads it back into an `int`
(`npos` becomes `-1`). -/
def rfindCharAux (c : Char) : List Char → Nat → Int → Int
  | [], _, best => best
  | x :: xs, i, best => rfindCharAux c xs (i + 1) (if x = c then Int.ofNat i else best)

def rfindChar (c : Char) (s : List Char) (pos : Nat) : Int :=
  rfindCharAux c (s.take (pos + 1)) 0 (-1)

/-- `Cmd::CompletionItem`: a (replacement, description) pair. -/
abbrev CompletionItem := List Char × List Char

/-- `std::string` `operator<` (lexicographic, strict). -/
def strLtB : List Char → List Char → Bool
  | _, [] => false
  | [], _ :: _ => true
  | a :: as, b :: bs => if a < b then true else if b < a then false else strLtB as bs

/-- `std::pair` `operator<` on completion items (first, then second). -/
def itemLt (a b : CompletionItem) : Bool :=
  if strLtB a.1 b.1 then true
  else if strLtB b.1 a.1 then false
  else strLtB a.2 b.2

/-- The non-strict order induced by `itemLt`, used by the sort. -/
def itemLe (a b : CompletionItem) : Bool := !itemLt b a

/-- Insert into a sorted list (auxiliary for `sortItems`). -/
def insertSorted (x : CompletionItem) : List CompletionItem → List CompletionItem
  | [] => [x]
  | y :: ys => if itemLe x y then x :: y :: ys else y :: insertSorted x ys

/-- `std::sort(candidates.begin(), candidates.end())`: sort by the pair order.
Modelled by insertion sort, which agrees with any comparison sort up to the
order of equal elements (and completion items compare equal only when they
are equal as pairs). -/
def sortItems : List CompletionItem → List CompletionItem
  | [] => []
  | x :: xs => insertSorted x (sortItems xs)

/-- Auxiliary for `dedupAdjacent`: drop the elements equal to the last kept
element `prev`, keeping the first of each new run. -/
def dedupFrom (prev : CompletionItem) : List CompletionItem → List CompletionItem
  | [] => []
  | b :: rest => if b = prev then dedupFrom prev rest else b :: dedupFrom b rest

/-- `candidates.erase(std::unique(...), candidates.end())`: drop adjacent
duplicates, keeping the first of each run.  Items are compared as whole pairs
(replacement text and description). -/
def dedupAdjacent : List CompletionItem → List CompletionItem
  | [] => []
  | a :: rest => a :: dedupFrom a rest

/-- The Field state: the line buffer with its cursor (the `LineEditData`
primitive, code-point units) and the submission history. -/
structure Field where
  buffer : List Char
  cursor : Nat
  hist : List (List Char)
deriving DecidableEq, Repr

/-- Modelled from the spec: `LineEditData::DeletePrev(n)` — delete `n`
code points immediately before the cursor; an over-length delete removes
only what exists before the cursor. -/
def deletePrev (n : Nat) (f : Field) : Field :=
  let k := min n f.cursor
  { f with
    buffer := f.buffer.take (f.cursor - k) ++ f.buffer.drop f.cursor
    cursor := f.cursor - k }

/-- `GetText().insert(GetCursorPos(), t)` followed by
`SetCursor(GetCursorPos() + t.size())` (the splice-in step). -/
def insertAtCursor (t : List Char) (f : Field) : Field :=
  { f with
    buffer := f.buffer.take f.cursor ++ t ++ f.buffer.drop f.cursor
    cursor := f.cursor + t.length }

/-- `Field::RunCommand`'s dispatch decision on the non-empty buffer text
(first character `/` or `\` stripped; else verbatim when no default command;
else `defaultCommand + " " + escape(text)`).  `escape` stands for the
external `Cmd::Escape`. -/
def dispatchText (escape : List Char → List Char) (defaultCommand : List Char)
    (c : Char) (rest : List Char) : List Char :=
  if c = '/' ∨ c = '\\' then rest
  else if defaultCommand = [] then c :: rest
  else defaultCommand ++ [' '] ++ escape (c :: rest)

/-- `Field::RunCommand(defaultCommand)`.  Returns the new field state and the
text handed to `Cmd::BufferCommandText` (`none` when nothing is dispatched).
An empty buffer is a no-op; otherwise the dispatch decision inspects the
first character, the original text is appended to the history, and the
buffer is cleared with the cursor reset. -/
def RunCommand (escape : List Char → List Char) (defaultCommand : List Char)
    (f : Field) : Field × Option (List Char) :=
  match f.buffer with
  | [] => (f, none)
  | c :: rest =>
    ({ buffer := [], cursor := 0, hist := f.hist ++ [c :: rest] },
     some (dispatchText escape defaultCommand c rest))

/-- First-character test of `Field::AutoComplete`'s normalization step:
`!GetText().empty() && (GetText()[0] == '/' || GetText()[0] == '\\')`. -/
def startsWithSlash : List Char → Bool
  | [] => false
  | c :: _ => c = '/' || c = '\\'

/-- Step A of `Field::AutoComplete`: if the buffer is empty or does not start
with `/` or `\`, insert `/` at position 0 and advance the cursor by one. -/
def normalizeSlash (f : Field) : Field :=
  if startsWithSlash f.buffer then f
  else { f with buffer := '/' :: f.buffer, cursor := f.cursor + 1 }

/-- The external collaborators of `Field::AutoComplete`:
`splitCommand s` returns the offset into `s` of the start of the next
command (`s.length` when there is no further command separator), as
`Cmd::SplitCommand` returns a pointer into `[start, end]`;
`tokenize` is the quoting-aware argument parser `Cmd::Args`;
`complete` is the candidate provider `Cmd::CompleteArgument`. -/
structure Externals where
  splitCommand : List Char → Nat
  tokenize : List Char → List (List Char)
  complete : List (List Char) → Nat → List CompletionItem

/-- The `while (true)` loop of `Field::AutoComplete` that repeatedly calls
`Cmd::SplitCommand` and advances `commandStart`, keeping only the last
command segment.  The fuel bounds the loop: the real splitter always either
returns the end pointer or advances past at least the separator character, so
with `s.length + 1` fuel the bound is never hit. -/
def lastSegmentFuel (e : Externals) : Nat → List Char → List Char
  | 0, s => s
  | fuel + 1, s =>
    let k := e.splitCommand s
    if k = s.length then s else lastSegmentFuel e fuel (s.drop k)

def lastSegment (e : Externals) (s : List Char) : List Char :=
  lastSegmentFuel e (s.length + 1) s

/-- Steps B–D of `Field::AutoComplete` on the normalized field: isolate the
active segment (text from offset 1 up to the cursor, last command after
separator splitting), tokenize it, and resolve the target argument index and
the prefix-to-replace.  Returns `(args, argNum, prefix)`.  The prefix is
returned as its code-point content; the source holds it as a UTF-8
`std::string`, whose `size()` is `utf8Len` of this content (taken at the
delete site in `acCommit`). -/
def resolveTarget (e : Externals) (nf : Field) :
    List (List Char) × Nat × List Char :=
  let commandText := (nf.buffer.drop 1).take (nf.cursor - 1)
  let args := e.tokenize (lastSegment e commandText)
  let argc := args.length
  if argc = 0 || cisspace (nf.buffer.getD (nf.cursor - 1) '\x00') then
    (args, argc, [])
  else
    (args, argc - 1, args.getD (argc - 1) [])

/-- Step F of `Field::AutoComplete`: sort the provider's candidates and
remove exact duplicates. -/
def normalizeCandidates (candidates : List CompletionItem) : List CompletionItem :=
  dedupAdjacent (sortItems candidates)

/-- The `prefixSize` loop of `Field::AutoComplete`: starting from
`candidates[0].first.size()`, take the minimum over all candidates of the
case-insensitive common-prefix length with `candidates[0].first`. -/
def prefixSizeOf (cands : List CompletionItem) : Nat :=
  match cands with
  | [] => 0
  | c0 :: _ => cands.foldl (fun acc c => min acc (longestIPrefixSize c.1 c0.1)) c0.1.length

/-- The `maxCandidateLength` tracked by the same loop (for column alignment
in the ambiguity report). -/
def maxCandLength (cands : List CompletionItem) : Nat :=
  cands.foldl (fun acc c => max acc c.1.length) 0

/-- `std::string completedArg(candidates[0].first, 0, prefixSize)`: the common
insertion text, before the single-candidate space heuristic. -/
def commonInsertion (cands : List CompletionItem) : List Char :=
  (cands.headD ([], [])).1.take (prefixSizeOf cands)

/-- Step H of `Field::AutoComplete` (the single-candidate convenience): append
one space when exactly one candidate remains, the character at the (original,
pre-splice) cursor position is not whitespace — reading one past the end of
the buffer yields the null character, as `std::u32string::operator[]` does at
`size()` — and the completed text does not end in `/`. -/
def insertedText (nf : Field) (cands : List CompletionItem) : List Char :=
  let completedArg := commonInsertion cands
  if cands.length = 1 && !cisspace (nf.buffer.getD nf.cursor '\x00')
      && !isSuffix (chars "/") completedArg then
    completedArg ++ [' ']
  else
    completedArg

/-- A message sent to the interaction-log sink.  The external `Str::Format`
strings are kept structured: `echo line` is the `"^3-> ^*%s"` echo of the
post-splice buffer, `item name fill desc` is `"   %s%s %s"` with `fill`
alignment spaces, and `group ns count` is the namespace summary
`"   %s.\x7bx%i\x7d"`. -/
inductive LogMsg where
  | echo (line : List Char)
  | item (name : List Char) (fill : Nat) (desc : List Char)
  | group (ns : List Char) (count : Nat)
deriving DecidableEq, Repr

/-- The inner `jt` loop of the namespace grouping: starting just after the
candidate with replacement text `aFirst`, keep scanning while the common
prefix with `aFirst`, truncated at the last `.` within it, is a namespace
longer than the global `prefixSize`; accumulate the run length and the last
computed namespace length.  Returns `(run, nsLen)` where `run` is the number
of candidates grouped with `aFirst` and `nsLen` the shared namespace length. -/
def scanRun (aFirst : List Char) (prefixSize : Nat) :
    List CompletionItem → Nat → Int → Nat × Int
  | [], run, nsLen => (run, nsLen)
  | b :: rest, run, nsLen =>
    let commonPrefixLen := longestPrefixSize aFirst b.1
    let commonNSLen := rfindChar '.' aFirst commonPrefixLen
    if commonNSLen = (commonPrefixLen : Int) ∨ commonNSLen < (prefixSize : Int) then
      (run, nsLen)
    else
      scanRun aFirst prefixSize rest (run + 1) commonNSLen

/-- The outer `it` loop of the namespace grouping (target index ≤ 1): a
singleton prints in full; a run prints one `group` summary with the shared
namespace (the first `nsLen` characters of the run's first candidate) and the
member count, and scanning resumes right after the run.  The fuel bounds the
loop; every iteration consumes at least the head candidate, so fuel equal to
the list length (supplied by `groupCandidates`) is never exhausted. -/
def groupCandidatesFuel (prefixSize maxLen : Nat) :
    Nat → List CompletionItem → List LogMsg
  | 0, _ => []
  | _, [] => []
  | fuel + 1, a :: rest =>
    let (run, nsLen) := scanRun a.1 prefixSize rest 0 0
    if run = 0 then
      LogMsg.item a.1 (maxLen - a.1.length) a.2
        :: groupCandidatesFuel prefixSize maxLen fuel rest
    else
      LogMsg.group (a.1.take nsLen.toNat) (run + 1)
        :: groupCandidatesFuel prefixSize maxLen fuel (rest.drop run)

def groupCandidates (prefixSize maxLen : Nat)
    (cands : List CompletionItem) : List LogMsg :=
  groupCandidatesFuel prefixSize maxLen cands.length cands

/-- Step J of `Field::AutoComplete`: when 2+ candidates remain, echo the
post-splice line, then either print every candidate (argument completion,
target index > 1) or group by dotted namespace (command-name completion). -/
def ambiguityReport (spliced : Field) (argNum prefixSize maxLen : Nat)
    (cands : List CompletionItem) : List LogMsg :=
  if 2 ≤ cands.length then
    LogMsg.echo spliced.buffer ::
      (if 1 < argNum then
        cands.map (fun c => LogMsg.item c.1 (maxLen - c.1.length) c.2)
      else
        groupCandidates prefixSize maxLen cands)
  else []

/-- The result of a completion request: the final field state and the
interaction-log messages emitted. -/
structure ACResult where
  field : Field
  log : List LogMsg
deriving DecidableEq, Repr

/-- Steps F–J of `Field::AutoComplete`, run when the provider returned a
non-empty candidate list: normalize the candidates, compute the insertion
text, splice it in, and report ambiguity.  The splice's delete count is
`DeletePrev(prefix.size())`: `prefix` is a UTF-8 `std::string`, so the
count handed to the code-point primitive is the prefix's UTF-8 *byte*
length, `utf8Len pfx` — larger than `pfx.length` for non-ASCII prefixes. -/
def acCommit (nf : Field) (argNum : Nat) (pfx : List Char)
    (candidates : List CompletionItem) : ACResult :=
  let cands := normalizeCandidates candidates
  let toInsert := insertedText nf cands
  let spliced := insertAtCursor toInsert (deletePrev (utf8Len pfx) nf)
  ⟨spliced, ambiguityReport spliced argNum (prefixSizeOf cands) (maxCandLength cands) cands⟩

/-- Steps B–J of `Field::AutoComplete`, run on the already-normalized field.
`r.1` are the parsed arguments, `r.2.1` the target argument index and
`r.2.2` the prefix-to-replace. -/
def acAfterNormalize (e : Externals) (nf : Field) : ACResult :=
  let r := resolveTarget e nf
  let candidates := e.complete r.1 r.2.1
  if candidates = [] then ⟨nf, []⟩
  else acCommit nf r.2.1 r.2.2 candidates

/-- `Field::AutoComplete`: normalize the leading slash, then resolve the
target, fetch candidates and complete. -/
def AutoComplete (e : Externals) (f : Field) : ACResult :=
  acAfterNormalize e (normalizeSlash f)

/-- The spec's own description of Step G, written from its words for a
refinement comparison with the source-derived `commonInsertion`: start from
the first candidate's replacement text and repeatedly shrink it to the
case-insensitive longest shared prefix with each subsequent candidate's
replacement text. -/
def specCommonInsertion : List CompletionItem → List Char
  | [] => []
  | c0 :: rest =>
    rest.foldl (fun acc c => acc.take (longestIPrefixSize acc c.1)) c0.1

/-- A concrete external environment whose completion provider returns no
candidates (the splitter finds no separators; the tokenizer yields the whole
segment as one token). -/
def noCandidateExternals : Externals where
  splitCommand s := s.length
  tokenize s := if s = [] then [] else [s]
  complete _ _ := []

/-- A concrete external environment for the namespace-grouping example:
the provider offers `cg.drawGun`, `cg.drawFPS` and `sv.fps`. -/
def groupingExternals : Externals where
  splitCommand s := s.length
  tokenize s := if s = [] then [] else [s]
  complete _ _ :=
    [(chars "cg.drawGun", chars "descG"),
     (chars "cg.drawFPS", chars "descF"),
     (chars "sv.fps", chars "descS")]

end Console

namespace Console

/-- Case-insensitive common-prefix length of a string with itself is its
length. -/
theorem lip_self (s : List Char) : longestIPrefixSize s s = s.length := by
  induction s with
  | nil => rfl
  | cons a as ih => simp [longestIPrefixSize, ih]

/-- The case-insensitive common-prefix length is symmetric. -/
theorem lip_comm (a b : List Char) :
    longestIPrefixSize a b = longestIPrefixSize b a := by
  induction a generalizing b with
  | nil => cases b <;> rfl
  | cons x xs ih =>
    cases b with
    | nil => rfl
    | cons y ys =>
      by_cases h : x.toLower = y.toLower
      · simp only [longestIPrefixSize]
        rw [if_pos h, if_pos h.symm, ih]
      · have h' : ¬ y.toLower = x.toLower := fun hh => h hh.symm
        simp only [longestIPrefixSize]
        rw [if_neg h, if_neg h']

/-- Truncating the left argument truncates the case-insensitive
common-prefix length. -/
theorem lip_take_left (a b : List Char) (k : Nat) :
    longestIPrefixSize (a.take k) b = min k (longestIPrefixSize a b) := by
  induction a generalizing b k with
  | nil => cases b <;> simp [longestIPrefixSize]
  | cons x xs ih =>
    cases k with
    | zero => cases b <;> simp [longestIPrefixSize]
    | succ n =>
      cases b with
      | nil => simp [longestIPrefixSize]
      | cons y ys =>
        by_cases h : x.toLower = y.toLower
        · simp [longestIPrefixSize, h, ih, Nat.succ_min_succ]
        · simp [longestIPrefixSize, h]

/-- Folding minima of common-prefix lengths against a fixed first string is
the same as repeatedly shrinking that string. -/
theorem take_foldl_shrink (c0 : List Char) (rest : List CompletionItem) (k : Nat) :
    c0.take (rest.foldl (fun acc c => min acc (longestIPrefixSize c.1 c0)) k) =
      rest.foldl (fun acc c => acc.take (longestIPrefixSize acc c.1)) (c0.take k) := by
  induction rest generalizing k with
  | nil => rfl
  | cons c rest ih =>
    simp only [List.foldl_cons]
    rw [lip_take_left, List.take_take]
    have h1 : min (min k (longestIPrefixSize c0 c.1)) k
        = min k (longestIPrefixSize c.1 c0) := by
      rw [lip_comm c.1 c0]; omega
    rw [h1, ih]

/-- C1: For every non-empty buffer, `RunCommand`'s dispatch decision inspects
only the first character: if it is `/` or `\`, the dispatched text is the
line with exactly its first character removed; otherwise, with no default
command configured, the dispatched text is the line verbatim; otherwise it is
`defaultCommand + " " + escape(line)`. -/
theorem runCommand_dispatch_decision (escape : List Char → List Char)
    (defaultCommand : List Char) (c : Char) (rest : List Char) (cur : Nat)
    (hist : List (List Char)) :
    (RunCommand escape defaultCommand ⟨c :: rest, cur, hist⟩).2 =
      some (if c = '/' ∨ c = '\\' then rest
        else if defaultCommand = [] then c :: rest
        else defaultCommand ++ [' '] ++ escape (c :: rest)) := rfl

/-- C9: For every non-empty buffer, after `RunCommand` the buffer is empty,
the cursor is 0, and the most recent history entry is the original typed
text (pre-escape, pre-prefix-strip), while the dispatcher received the
transformed dispatch text of that same original line. -/
theorem runCommand_postconditions (escape : List Char → List Char)
    (defaultCommand : List Char) (c : Char) (rest : List Char) (cur : Nat)
    (hist : List (List Char)) :
    (RunCommand escape defaultCommand ⟨c :: rest, cur, hist⟩).1.buffer = [] ∧
    (RunCommand escape defaultCommand ⟨c :: rest, cur, hist⟩).1.cursor = 0 ∧
    (RunCommand escape defaultCommand ⟨c :: rest, cur, hist⟩).1.hist
      = hist ++ [c :: rest] ∧
    (RunCommand escape defaultCommand ⟨c :: rest, cur, hist⟩).2
      = some (dispatchText escape defaultCommand c rest) :=
  ⟨rfl, rfl, rfl, rfl⟩

/-- C6: `AutoComplete` runs the slash normalization before anything else; a
buffer that is empty or does not start with `/` or `\` gets `/` inserted at
position 0 with the cursor advanced by one, and a buffer already starting
with `/` or `\` is left unchanged. -/
theorem autoComplete_normalization (e : Externals) (f : Field) :
    AutoComplete e f = acAfterNormalize e (normalizeSlash f) ∧
    ((f.buffer = [] ∨ ∀ c rest, f.buffer = c :: rest → c ≠ '/' ∧ c ≠ '\\') →
      normalizeSlash f = ⟨'/' :: f.buffer, f.cursor + 1, f.hist⟩) ∧
    (∀ c rest, f.buffer = c :: rest → c = '/' ∨ c = '\\' →
      normalizeSlash f = f) := by
  refine ⟨rfl, ?_, ?_⟩
  · intro h
    have hs : startsWithSlash f.buffer = false := by
      cases hb : f.buffer with
      | nil => rfl
      | cons c rest =>
        rcases h with h | h
        · rw [hb] at h; simp at h
        · obtain ⟨h1, h2⟩ := h c rest hb
          simp [startsWithSlash, h1, h2]
    simp [normalizeSlash, hs]
  · intro c rest hb hc
    have hs : startsWithSlash f.buffer = true := by
      rw [hb]; rcases hc with h | h <;> simp [startsWithSlash, h]
    simp [normalizeSlash, hs]

/-- Witness for C6: completing on the empty buffer inserts `/` and advances
the cursor; a buffer already starting with `/` is untouched. -/
theorem autoComplete_normalization_witness :
    normalizeSlash ⟨[], 0, []⟩ = ⟨chars "/", 1, []⟩ ∧
    normalizeSlash ⟨chars "/ab", 1, []⟩ = ⟨chars "/ab", 1, []⟩ := by
  constructor
  · exact ((autoComplete_normalization noCandidateExternals ⟨[], 0, []⟩).2.1
      (Or.inl rfl)).trans (by decide)
  · exact (autoComplete_normalization noCandidateExternals
      ⟨chars "/ab", 1, []⟩).2.2 '/' (chars "ab") (by decide) (Or.inl rfl)

/-- C7: when the completion provider returns no candidates, `AutoComplete`
aborts with the field exactly as it was after normalization — any inserted
`/` is kept — and emits no log message. -/
theorem autoComplete_empty_candidates (e : Externals) (f : Field)
    (h : e.complete (resolveTarget e (normalizeSlash f)).1
        (resolveTarget e (normalizeSlash f)).2.1 = []) :
    AutoComplete e f = ⟨normalizeSlash f, []⟩ := by
  unfold AutoComplete acAfterNormalize
  simp [h]

/-- Witness for C7: on buffer `a` (cursor 1) with an empty-result provider,
the call leaves the normalized buffer `/a` with cursor 2 in place. -/
theorem autoComplete_empty_candidates_witness :
    AutoComplete noCandidateExternals ⟨chars "a", 1, []⟩
      = ⟨⟨chars "/a", 2, []⟩, []⟩ := by
  rw [autoComplete_empty_candidates noCandidateExternals ⟨chars "a", 1, []⟩ rfl]
  decide

/-- C8: every completion request is atomic with respect to the buffer: each
call returns either the abort state (the field exactly as normalization left
it, no log) or the fully committed mutation `acCommit` (prefix deletion,
insertion and cursor advance as one unit); no partially spliced state is
ever produced. -/
theorem autoComplete_atomic (e : Externals) (f : Field) :
    AutoComplete e f = ⟨normalizeSlash f, []⟩ ∨
    ∃ candidates, candidates ≠ [] ∧
      AutoComplete e f =
        acCommit (normalizeSlash f) (resolveTarget e (normalizeSlash f)).2.1
          (resolveTarget e (normalizeSlash f)).2.2 candidates := by
  unfold AutoComplete acAfterNormalize
  by_cases h : e.complete (resolveTarget e (normalizeSlash f)).1
      (resolveTarget e (normalizeSlash f)).2.1 = []
  · left; simp [h]
  · right; exact ⟨_, h, by simp [h]⟩

/-- C2: the common insertion text the code computes (the first candidate
truncated to the folded minimum of case-insensitive common-prefix lengths)
equals the spec's description — repeatedly shrinking the first candidate's
text to the case-insensitive longest shared prefix with each subsequent
candidate — for every non-empty candidate list; and for candidates
`help`/`history` the computed insertion text is `h`. -/
theorem commonInsertion_eq_spec (c0 : CompletionItem)
    (rest : List CompletionItem) :
    commonInsertion (c0 :: rest) = specCommonInsertion (c0 :: rest) ∧
    commonInsertion (normalizeCandidates
      [(chars "help", []), (chars "history", [])]) = chars "h" := by
  constructor
  · simp only [commonInsertion, prefixSizeOf, specCommonInsertion,
      List.headD_cons, List.foldl_cons, lip_self, min_self]
    rw [take_foldl_shrink, List.take_length]
  · decide

/-- C3: the claim (and the spec's "cursor and length are always in
code-point units, never raw bytes") fails on the code at a non-ASCII
prefix-to-replace.  On buffer `/né` (3 code points, cursor 3) with
prefix-to-replace `né` — 2 code points but 3 UTF-8 bytes — and the single
candidate `német`, the source's `DeletePrev(prefix.size())` deletes 3 code
points, eating the leading `/` as well, and yields buffer `német ` with
cursor 6; deleting exactly the prefix's 2 code points, as the claim states,
would yield `/német ` with cursor 7. -/
theorem acCommit_byte_delete_bug :
    (chars "né").length = 2 ∧ utf8Len (chars "né") = 3 ∧
    (acCommit ⟨chars "/né", 3, []⟩ 0 (chars "né")
        [(chars "német", chars "d")]).field.buffer = chars "német " ∧
    (acCommit ⟨chars "/né", 3, []⟩ 0 (chars "né")
        [(chars "német", chars "d")]).field.cursor = 6 := by decide

/-- C5: with exactly one candidate left after deduplication, a
non-whitespace character at the (original, pre-splice) cursor position and a
completed text not ending in `/`, exactly one trailing space is appended to
the completed text before splicing; the committed field splices that
space-extended text. -/
theorem acCommit_single_candidate_space (nf : Field) (argNum : Nat)
    (pfx : List Char) (candidates : List CompletionItem)
    (h1 : (normalizeCandidates candidates).length = 1)
    (h2 : cisspace (nf.buffer.getD nf.cursor '\x00') = false)
    (h3 : isSuffix (chars "/")
        (commonInsertion (normalizeCandidates candidates)) = false) :
    insertedText nf (normalizeCandidates candidates)
      = commonInsertion (normalizeCandidates candidates) ++ [' '] ∧
    (acCommit nf argNum pfx candidates).field
      = insertAtCursor
          (commonInsertion (normalizeCandidates candidates) ++ [' '])
          (deletePrev (utf8Len pfx) nf) := by
  have hins : insertedText nf (normalizeCandidates candidates)
      = commonInsertion (normalizeCandidates candidates) ++ [' '] := by
    simp only [insertedText, h1, h2, h3]
    rfl
  refine ⟨hins, ?_⟩
  have hfield : (acCommit nf argNum pfx candidates).field
      = insertAtCursor (insertedText nf (normalizeCandidates candidates))
          (deletePrev (utf8Len pfx) nf) := rfl
  rw [hfield, hins]

/-- Witness for C5: the single candidate `net.connect` on buffer `/net.c`
(cursor at the end, so the character at the cursor reads as the null
character, which is not whitespace) gets one trailing space. -/
theorem acCommit_single_candidate_space_witness :
    insertedText ⟨chars "/net.c", 6, []⟩
        (normalizeCandidates [(chars "net.connect", chars "d")])
      = chars "net.connect " := by
  have h := acCommit_single_candidate_space ⟨chars "/net.c", 6, []⟩ 0
    (chars "net.c") [(chars "net.connect", chars "d")]
    (by decide) (by decide) (by decide)
  exact h.1.trans (by decide)

/-- C4: on the candidate set `cg.drawGun`, `cg.drawFPS`, `sv.fps` at target
index 0, the ambiguity report echoes the line, groups the two `cg.` entries
into the single namespace summary `cg.{x2}` (shared dotted prefix `cg`,
member count 2), and prints the run-less `sv.fps` individually with its
description, resuming the scan right after the `cg.` run. -/
theorem autoComplete_namespace_grouping :
    (AutoComplete groupingExternals ⟨[], 0, []⟩).log =
      [LogMsg.echo (chars "/"), LogMsg.group (chars "cg") 2,
       LogMsg.item (chars "sv.fps") 4 (chars "descS")] := by decide

/-- Membership after inserting into a sorted list. -/
theorem mem_insertSorted {a x : CompletionItem} {l : List CompletionItem} :
    x ∈ insertSorted a l ↔ x = a ∨ x ∈ l := by
  induction l with
  | nil => simp [insertSorted]
  | cons y ys ih =>
    simp only [insertSorted]
    by_cases h : itemLe a y = true
    · simp only [if_pos h, List.mem_cons]
    · simp only [if_neg h, List.mem_cons, ih]
      tauto

/-- Sorting preserves membership. -/
theorem mem_sortItems {x : CompletionItem} {l : List CompletionItem} :
    x ∈ sortItems l ↔ x ∈ l := by
  induction l with
  | nil => simp [sortItems]
  | cons y ys ih => simp [sortItems, mem_insertSorted, ih]

/-- An element of the tail survives adjacent deduplication unless it equals
the last kept element. -/
theorem mem_dedupFrom {x : CompletionItem} :
    ∀ {l : List CompletionItem} (prev : CompletionItem), x ∈ l →
      x = prev ∨ x ∈ dedupFrom prev l := by
  intro l
  induction l with
  | nil => intro prev hx; cases hx
  | cons b rest ih =>
    intro prev hx
    simp only [dedupFrom]
    by_cases h : b = prev
    · rw [if_pos h]
      rcases List.mem_cons.mp hx with rfl | hx'
      · exact Or.inl h
      · exact ih prev hx'
    · rw [if_neg h]
      rcases List.mem_cons.mp hx with rfl | hx'
      · exact Or.inr (List.mem_cons_self _ _)
      · rcases ih b hx' with rfl | hmem
        · exact Or.inr (List.mem_cons_self _ _)
        · exact Or.inr (List.mem_cons_of_mem _ hmem)

/-- Every provider item reappears in the sorted, deduplicated candidate
list (duplicates are erased only as whole pairs). -/
theorem mem_normalizeCandidates {x : CompletionItem} {l : List CompletionItem}
    (hx : x ∈ l) : x ∈ normalizeCandidates l := by
  have hs : x ∈ sortItems l := mem_sortItems.mpr hx
  show x ∈ dedupAdjacent (sortItems l)
  cases hsort : sortItems l with
  | nil => rw [hsort] at hs; cases hs
  | cons a rest =>
    rw [hsort] at hs
    simp only [dedupAdjacent]
    rcases List.mem_cons.mp hs with rfl | hx'
    · exact List.mem_cons_self _ _
    · rcases mem_dedupFrom a hx' with rfl | hmem
      · exact List.mem_cons_self _ _
      · exact List.mem_cons_of_mem _ hmem

/-- A list containing two distinct elements has length at least 2. -/
theorem two_le_length_of_two_mem {α : Type} {l : List α} {a b : α}
    (ha : a ∈ l) (hb : b ∈ l) (hab : a ≠ b) : 2 ≤ l.length := by
  match l with
  | [] => cases ha
  | [x] =>
    rw [List.mem_singleton] at ha hb
    exact absurd (ha.trans hb.symm) hab
  | x :: y :: rest => simp only [List.length_cons]; omega

/-- C10: deduplication removes only candidates equal in both replacement
text and description: two provider items with the same replacement text but
different descriptions both survive, leave 2+ candidates — so the ambiguity
report is emitted — and the single-candidate trailing-space heuristic is
suppressed. -/
theorem dedup_distinct_descriptions (l : List CompletionItem)
    (a b : CompletionItem) (ha : a ∈ l) (hb : b ∈ l)
    (hfst : a.1 = b.1) (hsnd : a.2 ≠ b.2) :
    a ∈ normalizeCandidates l ∧ b ∈ normalizeCandidates l ∧
    2 ≤ (normalizeCandidates l).length ∧
    (∀ nf : Field, insertedText nf (normalizeCandidates l)
      = commonInsertion (normalizeCandidates l)) ∧
    (∀ (nf : Field) (argNum : Nat) (pfx : List Char),
      (acCommit nf argNum pfx l).log ≠ []) := by
  have hab : a ≠ b := fun h => hsnd (congrArg Prod.snd h)
  have ha' := mem_normalizeCandidates ha
  have hb' := mem_normalizeCandidates hb
  have hlen : 2 ≤ (normalizeCandidates l).length :=
    two_le_length_of_two_mem ha' hb' hab
  refine ⟨ha', hb', hlen, ?_, ?_⟩
  · intro nf
    have h1 : decide ((normalizeCandidates l).length = 1) = false := by
      simp only [decide_eq_false_iff_not]
      omega
    simp [insertedText, h1]
  · intro nf argNum pfx
    have hlog : (acCommit nf argNum pfx l).log
        = ambiguityReport
            (insertAtCursor (insertedText nf (normalizeCandidates l))
              (deletePrev (utf8Len pfx) nf))
            argNum (prefixSizeOf (normalizeCandidates l))
            (maxCandLength (normalizeCandidates l))
            (normalizeCandidates l) := rfl
    rw [hlog]
    simp [ambiguityReport, hlen]

/-- Witness for C10: two items with replacement `x` and different
descriptions both survive, 2+ candidates remain, no space is appended, and
the ambiguity report is non-empty. -/
theorem dedup_distinct_descriptions_witness :
    (chars "x", chars "d1") ∈ normalizeCandidates
        [(chars "x", chars "d1"), (chars "x", chars "d2")] ∧
    2 ≤ (normalizeCandidates
        [(chars "x", chars "d1"), (chars "x", chars "d2")]).length ∧
    insertedText ⟨chars "/x", 2, []⟩ (normalizeCandidates
        [(chars "x", chars "d1"), (chars "x", chars "d2")])
      = commonInsertion (normalizeCandidates
        [(chars "x", chars "d1"), (chars "x", chars "d2")]) ∧
    (acCommit ⟨chars "/x", 2, []⟩ 0 (chars "x")
        [(chars "x", chars "d1"), (chars "x", chars "d2")]).log ≠ [] := by
  have h := dedup_distinct_descriptions
    [(chars "x", chars "d1"), (chars "x", chars "d2")]
    (chars "x", chars "d1") (chars "x", chars "d2")
    (by decide) (by decide) (by decide) (by decide)
  exact ⟨h.1, h.2.2.1, h.2.2.2.1 _, h.2.2.2.2 _ _ _⟩

end Console
